import Mathlib

/-!
Verification of the RazeBlock node core (src/raze/node/node.cpp) against its
natural-language specification.  The C++ code is shallowly embedded: blocks,
endpoints and hashes are abstracted to `Nat` identifiers, steady-clock time
points to `Int`, 128-bit weights to `Nat`, and side effects (block-processor
submissions, observer dispatches, network sends) to explicit effect lists
returned alongside the new state.
-/

set_option linter.unusedVariables false

namespace Razeblock

/-! ### Election (`raze::election`, node.cpp)

An election's mutable state relevant to `confirm_once`: the `last_winner`
block (the spec's `current_winner`) and the one-shot `confirmed` flag
(`std::atomic_flag`, set by `test_and_set` on the first call). -/

structure ElectionState where
  lastWinner : Nat
  confirmed : Bool
deriving DecidableEq, Repr

/-- Effects emitted by one call to `confirm_once`:
`submissions` are blocks handed to `block_processor.process_receive_many`,
paired with the `force` flag; `retained` are "Retaining block" log lines
(recorded with the retained block); `processConfirmed` are arguments of the
deferred `process_confirmed` dispatch; `confirmationActions` are arguments
`(winner, exceeded_min_threshold)` of the user confirmation callback. -/
structure ConfirmEffects where
  submissions : List (Nat × Bool)
  retained : List Nat
  processConfirmed : List Nat
  confirmationActions : List (Nat × Bool)
deriving DecidableEq, Repr

def noEffects : ConfirmEffects := ⟨[], [], [], []⟩

/-- Threshold `ledger.supply / 16` (`raze::election::minimum_threshold`). -/
def minimum_threshold (supply : Nat) : Nat := supply / 16

/-- Threshold `ledger.supply / 2` (`raze::election::quorum_threshold`). -/
def quorum_threshold (supply : Nat) : Nat := supply / 2

/-- Embedding of `raze::election::confirm_once`.  The ledger tally
(`node.ledger.tally`) is passed in as a list of `(weight, block)` pairs whose
head is the tally winner (`tally_l.begin ()`); the code asserts the tally is
non-empty, so the `[]` arm (which only records the `test_and_set`) is
unreachable under that assertion.  Following the source: on the first call,
if the tally winner differs from `last_winner` and its weight exceeds
`minimum_threshold`, the winner is submitted with `force = true` and
`last_winner` is updated; below the threshold the block is retained; in all
arms `process_confirmed` and the confirmation action are dispatched with the
resulting `last_winner` and the `exceeded_min_threshold` flag. -/
def confirm_once (supply : Nat) (tally : List (Nat × Nat)) (s : ElectionState) :
    ElectionState × ConfirmEffects :=
  if s.confirmed then (s, noEffects)
  else
    match tally with
    | [] => ({ s with confirmed := true }, noEffects)
    | (w, bl) :: _ =>
      let exceededMin : Bool := decide (minimum_threshold supply < w)
      let step :=
        if bl = s.lastWinner then
          ({ s with confirmed := true }, ([] : List (Nat × Bool)), ([] : List Nat))
        else if exceededMin then
          (({ lastWinner := bl, confirmed := true } : ElectionState), [(bl, true)], [])
        else
          ({ s with confirmed := true }, [], [s.lastWinner])
      (step.1,
       { submissions := step.2.1
         retained := step.2.2
         processConfirmed := [step.1.lastWinner]
         confirmationActions := [(step.1.lastWinner, exceededMin)] })

/-- Embedding of `raze::election::have_quorum`: the tally winner's weight
exceeds `quorum_threshold`. -/
def have_quorum (supply : Nat) (tally : List (Nat × Nat)) : Bool :=
  match tally with
  | [] => false
  | (w, _) :: _ => decide (quorum_threshold supply < w)

/-- Embedding of `raze::election::confirm_if_quorum`. -/
def confirm_if_quorum (supply : Nat) (tally : List (Nat × Nat)) (s : ElectionState) :
    ElectionState × ConfirmEffects :=
  if have_quorum supply tally then confirm_once supply tally s else (s, noEffects)

/-- Embedding of `raze::election::confirm_cutoff` (the logging branch aside,
it simply calls `confirm_once`). -/
def confirm_cutoff (supply : Nat) (tally : List (Nat × Nat)) (s : ElectionState) :
    ElectionState × ConfirmEffects :=
  confirm_once supply tally s

/-- C1 (election confirm_once behaviour).  On a not-yet-confirmed election
whose tally winner `bl` (weight `w`) differs from `current_winner`:
if `w` exceeds `minimum_threshold supply` then `bl` is submitted to the block
processor with `force = true` and `current_winner` becomes `bl`; otherwise
nothing is submitted and `current_winner` is unchanged; in either case
`process_confirmed` and the confirmation callback are dispatched once with
the resulting `current_winner` and the exceeded-minimum flag. -/
theorem confirm_once_spec (supply w bl : Nat) (rest : List (Nat × Nat))
    (s : ElectionState) (hc : s.confirmed = false) (hne : bl ≠ s.lastWinner) :
    ((confirm_once supply ((w, bl) :: rest) s).2.processConfirmed =
        [(confirm_once supply ((w, bl) :: rest) s).1.lastWinner]) ∧
    ((confirm_once supply ((w, bl) :: rest) s).2.confirmationActions =
        [((confirm_once supply ((w, bl) :: rest) s).1.lastWinner,
          decide (minimum_threshold supply < w))]) ∧
    (minimum_threshold supply < w →
        (confirm_once supply ((w, bl) :: rest) s).2.submissions = [(bl, true)] ∧
        (confirm_once supply ((w, bl) :: rest) s).1.lastWinner = bl) ∧
    (¬ minimum_threshold supply < w →
        (confirm_once supply ((w, bl) :: rest) s).2.submissions = [] ∧
        (confirm_once supply ((w, bl) :: rest) s).1.lastWinner = s.lastWinner) := by
  simp only [confirm_once, hc, Bool.false_eq_true, if_false, if_neg hne]
  by_cases hmin : minimum_threshold supply < w
  · simp [hmin]
  · simp [hmin]

/-- Witness for `confirm_once_spec` at supply 160, tally `[(10 + 1, 5)]`,
state `⟨7, false⟩` (so the minimum threshold 10 is exceeded). -/
theorem confirm_once_spec_witness :
    ((confirm_once 160 [(11, 5)] ⟨7, false⟩).2.processConfirmed =
        [(confirm_once 160 [(11, 5)] ⟨7, false⟩).1.lastWinner]) ∧
    ((confirm_once 160 [(11, 5)] ⟨7, false⟩).2.confirmationActions =
        [((confirm_once 160 [(11, 5)] ⟨7, false⟩).1.lastWinner,
          decide (minimum_threshold 160 < 11))]) ∧
    (minimum_threshold 160 < 11 →
        (confirm_once 160 [(11, 5)] ⟨7, false⟩).2.submissions = [(5, true)] ∧
        (confirm_once 160 [(11, 5)] ⟨7, false⟩).1.lastWinner = 5) ∧
    (¬ minimum_threshold 160 < 11 →
        (confirm_once 160 [(11, 5)] ⟨7, false⟩).2.submissions = [] ∧
        (confirm_once 160 [(11, 5)] ⟨7, false⟩).1.lastWinner = 7) :=
  confirm_once_spec 160 11 5 [] ⟨7, false⟩ rfl (by decide)

/-- C2 (confirm_once runs at most once).  Every call leaves the election
with `confirmed = true`, and on an already-confirmed election `confirm_once`
— and hence the quorum and cutoff paths through it — returns the state
unchanged and emits no submissions, no `process_confirmed` dispatch and no
confirmation callback. -/
theorem confirm_once_at_most_once (supply : Nat) (tally : List (Nat × Nat))
    (s : ElectionState) (h : s.confirmed = true) :
    (∀ s0 : ElectionState, (confirm_once supply tally s0).1.confirmed = true) ∧
    confirm_once supply tally s = (s, noEffects) ∧
    confirm_cutoff supply tally s = (s, noEffects) ∧
    (confirm_if_quorum supply tally s = (s, noEffects)) := by
  refine ⟨?_, ?_, ?_, ?_⟩
  · intro s0
    by_cases h0 : s0.confirmed
    · simp [confirm_once, h0]
    · cases tally with
      | nil => simp [confirm_once, h0]
      | cons p rest =>
        obtain ⟨w, bl⟩ := p
        simp only [confirm_once, h0, Bool.false_eq_true, if_false]
        by_cases hbl : bl = s0.lastWinner
        · simp [hbl]
        · by_cases hmin : minimum_threshold supply < w <;> simp [hbl, hmin]
  · simp [confirm_once, h]
  · simp [confirm_cutoff, confirm_once, h]
  · by_cases hq : have_quorum supply tally <;>
      simp [confirm_if_quorum, confirm_once, h, hq]

/-- Witness for `confirm_once_at_most_once` on the confirmed election
`⟨7, true⟩` with supply 160 and tally `[(11, 5)]`. -/
theorem confirm_once_at_most_once_witness :
    (∀ s0 : ElectionState, (confirm_once 160 [(11, 5)] s0).1.confirmed = true) ∧
    confirm_once 160 [(11, 5)] ⟨7, true⟩ = (⟨7, true⟩, noEffects) ∧
    confirm_cutoff 160 [(11, 5)] ⟨7, true⟩ = (⟨7, true⟩, noEffects) ∧
    (confirm_if_quorum 160 [(11, 5)] ⟨7, true⟩ = (⟨7, true⟩, noEffects)) :=
  confirm_once_at_most_once 160 [(11, 5)] ⟨7, true⟩ rfl

/-! ### Block processor (`raze::block_processor::process_receive_many`, node.cpp)

Blocks are abstracted to `Nat` identifiers with a hash function
`Nat → Nat`; the ledger's verdict (`raze::ledger::process` as reported by
`process_receive_one`) is an oracle `Nat → ProcessResult`.  The store's
`unchecked` table is a list of `(waiting-on hash, child block)` pairs. -/

inductive ProcessResult where
  | progress
  | old
  | gap_previous
  | gap_source
  | bad_signature
  | negative_spend
  | unreceivable
  | not_receive_from_send
  | account_mismatch
  | opened_burn_account
  | fork
deriving DecidableEq, Repr

structure BPState where
  unchecked : List (Nat × Nat)
  queue : List Nat
  progressList : List Nat
  gapErased : List Nat
deriving DecidableEq, Repr

/-- Embedding of `store.unchecked_get (transaction, hash)`: the child blocks
recorded as waiting on `h`. -/
def unchecked_get (u : List (Nat × Nat)) (h : Nat) : List Nat :=
  (u.filter (fun p => p.1 = h)).map (fun p => p.2)

/-- Net effect of the `unchecked_del` loop in `process_receive_many`: every
entry keyed by `h` is deleted. -/
def unchecked_del_all (u : List (Nat × Nat)) (h : Nat) : List (Nat × Nat) :=
  u.filter (fun p => ¬ p.1 = h)

/-- One iteration of the drain loop of
`raze::block_processor::process_receive_many`: pop the front item, process
it, and react to the result code.  The `progress` arm records the block in
the per-batch progress list and — because the source `switch` has no `break`
between the `progress` and `old` arms — falls through into the dependency
unwinding shared with `old`: the `unchecked` entries keyed by the block's
hash are fetched and deleted, each cached child is pushed onto the *front*
of the work queue (the loop order makes the front segment the reverse of the
cached list), and the hash is erased from the gap cache (recorded in
`gapErased`).  Every other result code leaves those structures unchanged
here (their reactions live in `process_receive_one`). -/
def process_step (result : Nat → ProcessResult) (hash : Nat → Nat)
    (s : BPState) : BPState :=
  match s.queue with
  | [] => s
  | b :: rest =>
    let h := hash b
    let unwind : BPState → BPState := fun st =>
      { st with
        unchecked := unchecked_del_all st.unchecked h
        queue := (unchecked_get st.unchecked h).reverse ++ rest
        gapErased := st.gapErased ++ [h] }
    match result b with
    | .progress => unwind { s with progressList := s.progressList ++ [b] }
    | .old => unwind s
    | _ => { s with queue := rest }

/-- C3 (dependency unwinding applies to Progress and Old).  When the front
block `b` of the queue processes with result `progress` or `old`, the step
leaves no `unchecked` entry keyed by `hash b`, pushes exactly the waiting
children (`unchecked_get` of `hash b`) onto the front of the queue, and the
entries removed are precisely those keyed by `hash b` (an entry survives iff
its key differs). -/
theorem process_step_unwinds (result : Nat → ProcessResult) (hash : Nat → Nat)
    (s : BPState) (b : Nat) (rest : List Nat) (hq : s.queue = b :: rest)
    (hr : result b = .progress ∨ result b = .old) :
    ((process_step result hash s).unchecked =
        s.unchecked.filter (fun p => ¬ p.1 = hash b)) ∧
    (∀ p ∈ (process_step result hash s).unchecked, p.1 ≠ hash b) ∧
    ((process_step result hash s).queue =
        (unchecked_get s.unchecked (hash b)).reverse ++ rest) := by
  have hmem : ∀ p ∈ unchecked_del_all s.unchecked (hash b), p.1 ≠ hash b := by
    intro p hp
    simp only [unchecked_del_all, List.mem_filter, decide_not,
      Bool.not_eq_eq_eq_not, Bool.not_true, decide_eq_false_iff_not] at hp
    exact hp.2
  rcases hr with hr | hr <;>
    simp [process_step, hq, hr, unchecked_del_all, hmem]

/-- Witness for `process_step_unwinds`: queue `[3]`, unchecked entries
`[(9, 4), (2, 5), (9, 6)]`, hash function `fun b => b * 3` (so block 3 has
hash 9), ledger verdict `progress` everywhere. -/
theorem process_step_unwinds_witness :
    ((process_step (fun _ => .progress) (fun b => b * 3)
        ⟨[(9, 4), (2, 5), (9, 6)], [3], [], []⟩).unchecked =
      [(9, 4), (2, 5), (9, 6)].filter (fun p => ¬ p.1 = (fun b => b * 3) 3)) ∧
    (∀ p ∈ (process_step (fun _ => .progress) (fun b => b * 3)
        ⟨[(9, 4), (2, 5), (9, 6)], [3], [], []⟩).unchecked,
      p.1 ≠ (fun b => b * 3) 3) ∧
    ((process_step (fun _ => .progress) (fun b => b * 3)
        ⟨[(9, 4), (2, 5), (9, 6)], [3], [], []⟩).queue =
      (unchecked_get [(9, 4), (2, 5), (9, 6)] ((fun b => b * 3) 3)).reverse ++ []) :=
  process_step_unwinds (fun _ => .progress) (fun b => b * 3)
    ⟨[(9, 4), (2, 5), (9, 6)], [3], [], []⟩ 3 [] rfl (Or.inl rfl)

/-! ### Confirm_ack handling (`network_message_visitor::confirm_ack`, node.cpp)

Vote validation (`store.vote_validate`, outside this translation unit) is
abstracted to its outcome: a code and, for replays, the stored vote —
represented by its `u64` sequence number.  Sequence arithmetic in the
visitor is `uint64_t`, so the difference is taken modulo `2 ^ 64`. -/

inductive VoteCode where
  | invalid
  | replay
  | vote
  | vote2
deriving DecidableEq, Repr

structure VoteResult where
  code : VoteCode
  storedSeq : Nat
deriving DecidableEq, Repr

def u64size : Nat := 2 ^ 64

/-- Embedding of the reply logic of `network_message_visitor::confirm_ack`:
after `vote_processor.vote` returns `res`, a single `confirm_ack` carrying
the stored vote is sent back to the sender exactly when the code is
`replay` and `vote.vote->sequence - message_a.vote->sequence > 10000`
(`uint64_t` subtraction).  The returned list holds the sequence numbers of
the replies sent for this one incoming message. -/
def confirm_ack_replies (res : VoteResult) (incomingSeq : Nat) : List Nat :=
  match res.code with
  | .replay =>
      if (res.storedSeq + u64size - incomingSeq) % u64size > 10000 then
        [res.storedSeq]
      else
        []
  | _ => []

/-- C5 (replay assistance replies).  For `u64` sequences with
`incomingSeq ≤ storedSeq` (the visitor asserts the stored sequence is
larger on a replay): a `replay` outcome whose stored sequence exceeds the
incoming one by more than 10000 produces exactly one reply, carrying the
stored vote; a replay within 10000 produces no reply; any non-replay
outcome produces no reply. -/
theorem confirm_ack_replies_spec (res : VoteResult) (incomingSeq : Nat)
    (hlt : res.storedSeq < u64size) (hle : incomingSeq ≤ res.storedSeq) :
    (res.code = .replay → 10000 < res.storedSeq - incomingSeq →
        confirm_ack_replies res incomingSeq = [res.storedSeq]) ∧
    (res.code = .replay → res.storedSeq - incomingSeq ≤ 10000 →
        confirm_ack_replies res incomingSeq = []) ∧
    (res.code ≠ .replay → confirm_ack_replies res incomingSeq = []) := by
  have hmod : (res.storedSeq + u64size - incomingSeq) % u64size =
      res.storedSeq - incomingSeq := by
    simp only [u64size] at hlt ⊢
    omega
  refine ⟨?_, ?_, ?_⟩
  · intro hc hgt
    simp [confirm_ack_replies, hc, hmod, hgt]
  · intro hc hle2
    simp [confirm_ack_replies, hc, hmod]
    omega
  · intro hc
    cases hres : res.code
    · simp [confirm_ack_replies, hres]
    · exact absurd hres hc
    · simp [confirm_ack_replies, hres]
    · simp [confirm_ack_replies, hres]

/-- Witness for `confirm_ack_replies_spec` on the replay result with stored
sequence 30000 against incoming sequence 5 (scenario S3 of the spec). -/
theorem confirm_ack_replies_spec_witness :
    ((⟨.replay, 30000⟩ : VoteResult).code = .replay → 10000 < 30000 - 5 →
        confirm_ack_replies ⟨.replay, 30000⟩ 5 = [30000]) ∧
    ((⟨.replay, 30000⟩ : VoteResult).code = .replay → 30000 - 5 ≤ 10000 →
        confirm_ack_replies ⟨.replay, 30000⟩ 5 = []) ∧
    ((⟨.replay, 30000⟩ : VoteResult).code ≠ .replay →
        confirm_ack_replies ⟨.replay, 30000⟩ 5 = []) :=
  confirm_ack_replies_spec ⟨.replay, 30000⟩ 5 (by norm_num [u64size]) (by norm_num)

/-! ### Peer container (`raze::peer_container`, node.cpp)

Endpoints are abstracted to `Nat` identifiers (already v6-normalized),
steady-clock time points to `Int`, and the `uint128` representative weight
to `Nat`.  The boost multi-index table is modelled as a list of entries
with unique endpoints; index 1 of the source container is ordered by
`last_contact` (it is the index `purge_list` takes `lower_bound (cutoff)`
on), so erasing `[begin, lower_bound cutoff)` on it removes exactly the
entries with `last_contact < cutoff`, an order-independent effect. -/

structure PeerInfo where
  endpoint : Nat
  last_contact : Int
  last_attempt : Int
  last_bootstrap_attempt : Int
  last_rep_request : Int
  last_rep_response : Int
  rep_weight : Nat
  network_version : Nat
deriving DecidableEq, Repr

/-- Embedding of `raze::peer_information::peer_information (endpoint, version)`:
fresh entries start with `last_contact = last_attempt = now`, epoch-zero
history timestamps and `rep_weight = 0`. -/
def peer_information (e version : Nat) (now : Int) : PeerInfo :=
  { endpoint := e
    last_contact := now
    last_attempt := now
    last_bootstrap_attempt := 0
    last_rep_request := 0
    last_rep_response := 0
    rep_weight := 0
    network_version := version }

/-- First entry for endpoint `e` (`peers.find (endpoint_a)`). -/
def find_peer (tbl : List PeerInfo) (e : Nat) : Option PeerInfo :=
  tbl.find? (fun p => p.endpoint = e)

/-- Result of `raze::peer_container::purge_list (cutoff)`: the table after
the purge, the returned vector, and whether the `disconnect_observer` fired.
Following the source: `result.assign (pivot, end)` copies the entries with
`last_contact ≥ cutoff` *before* their `last_attempt` is refreshed; the
erase removes exactly the entries with `last_contact < cutoff`; each
remaining entry gets `last_attempt = now`; the observer fires precisely
when the returned vector is empty. -/
structure PurgeOutcome where
  table : List PeerInfo
  returned : List PeerInfo
  disconnectFired : Bool
deriving DecidableEq, Repr

/-- Embedding of `raze::peer_container::purge_list` on the table viewed
through index 1 (sorted ascending by `last_contact`): `lower_bound (cutoff)`
is the first entry with `last_contact ≥ cutoff`, so
`result.assign (pivot, end)` keeps `dropWhile (last_contact < cutoff)` and
`erase (begin, pivot)` drops `takeWhile (last_contact < cutoff)`.  The
`attempts` container, purged in the same way, is handled by
`purge_attempts`. -/
def purge_list (cutoff now : Int) (tbl : List PeerInfo) : PurgeOutcome :=
  let returned := tbl.dropWhile (fun p => p.last_contact < cutoff)
  { table := returned.map (fun p => { p with last_attempt := now })
    returned := returned
    disconnectFired := returned.isEmpty }

/-- Embedding of the `attempts` purge inside `purge_list`: keepalive-attempt
records older than the cutoff are dropped. -/
def purge_attempts (cutoff : Int) (attempts : List (Nat × Int)) :
    List (Nat × Int) :=
  attempts.filter (fun a => ¬ a.2 < cutoff)

/-- Embedding of `raze::peer_container::rep_response`: if the endpoint is
present, its `last_rep_response` is refreshed and its `rep_weight` is
overwritten with the observed weight only when strictly greater; the
returned flag is set exactly in that case.  A missing endpoint changes
nothing and returns `false`. -/
def rep_response (tbl : List PeerInfo) (e : Nat) (w : Nat) (now : Int) :
    List PeerInfo × Bool :=
  match tbl with
  | [] => ([], false)
  | p :: rest =>
    if p.endpoint = e then
      (({ p with
          last_rep_response := now
          rep_weight := if p.rep_weight < w then w else p.rep_weight }) :: rest,
       decide (p.rep_weight < w))
    else
      let r := rep_response rest e w now
      (p :: r.1, r.2)

/-- Embedding of `raze::peer_container::rep_request`: refresh
`last_rep_request` of the endpoint's entry, if present. -/
def rep_request (tbl : List PeerInfo) (e : Nat) (now : Int) : List PeerInfo :=
  match tbl with
  | [] => []
  | p :: rest =>
    if p.endpoint = e then { p with last_rep_request := now } :: rest
    else p :: rep_request rest e now

/-- Embedding of `raze::peer_container::insert` for a non-reserved
endpoint: an existing entry has `last_contact` bumped; otherwise a fresh
`peer_information` entry is appended (`contacted` normalizes the endpoint
and calls this). -/
def peer_insert (tbl : List PeerInfo) (e version : Nat) (now : Int) :
    List PeerInfo :=
  match tbl with
  | [] => [peer_information e version now]
  | p :: rest =>
    if p.endpoint = e then { p with last_contact := now } :: rest
    else p :: peer_insert rest e version now

/-- Embedding of `raze::peer_container::bootstrap_peer`: the first entry
(in index-4 order, abstracted here to the list order) with
`network_version ≥ 5` gets its `last_bootstrap_attempt` refreshed. -/
def bootstrap_peer (tbl : List PeerInfo) (now : Int) : List PeerInfo :=
  match tbl with
  | [] => []
  | p :: rest =>
    if 5 ≤ p.network_version then { p with last_bootstrap_attempt := now } :: rest
    else p :: bootstrap_peer rest now

/-- Operations of `raze::peer_container` that mutate the peer table. -/
inductive PeerOp where
  | insert (e version : Nat) (now : Int)
  | repResponse (e w : Nat) (now : Int)
  | repRequest (e : Nat) (now : Int)
  | bootstrapPeer (now : Int)
  | purge (cutoff now : Int)
deriving DecidableEq, Repr

def apply_peer_op (op : PeerOp) (tbl : List PeerInfo) : List PeerInfo :=
  match op with
  | .insert e version now => peer_insert tbl e version now
  | .repResponse e w now => (rep_response tbl e w now).1
  | .repRequest e now => rep_request tbl e now
  | .bootstrapPeer now => bootstrap_peer tbl now
  | .purge cutoff now => (purge_list cutoff now tbl).table

/-! ### Rep crawler vote observer (`raze::node::node`, node.cpp)

The third vote observer registered in the node constructor: when the voted
block's hash is in the rep crawler's active set, `peers.rep_response` is
called with the sender's endpoint and `ledger.weight (vote.account)`. -/

def vote_observer_rep (crawler : List Nat) (blockHash : Nat) (e : Nat)
    (weight : Nat) (now : Int) (tbl : List PeerInfo) : List PeerInfo × Bool :=
  if blockHash ∈ crawler then rep_response tbl e weight now else (tbl, false)

/-! Helper lemmas about the peer table. -/

lemma dropWhile_eq_filter_of_sorted (cutoff : Int) :
    ∀ tbl : List PeerInfo,
      tbl.Pairwise (fun a b => a.last_contact ≤ b.last_contact) →
      tbl.dropWhile (fun p => p.last_contact < cutoff) =
        tbl.filter (fun p => ¬ p.last_contact < cutoff) := by
  intro tbl
  induction tbl with
  | nil => intro _; rfl
  | cons p rest ih =>
    intro hsort
    rcases List.pairwise_cons.mp hsort with ⟨hall, hrest⟩
    by_cases h : p.last_contact < cutoff
    · simpa [List.dropWhile, List.filter, h] using ih hrest
    · have hkeep : rest.filter (fun q => decide (cutoff ≤ q.last_contact)) =
          rest := by
        refine List.filter_eq_self.mpr ?_
        intro q hq
        have := hall q hq
        simp only [decide_eq_true_eq]
        omega
      simp [List.dropWhile, List.filter, h, hkeep]

lemma find_peer_unique {tbl : List PeerInfo} {e : Nat} {p r : PeerInfo}
    (hnd : (tbl.map PeerInfo.endpoint).Nodup)
    (hp : find_peer tbl e = some p) (hr : r ∈ tbl) (hre : r.endpoint = e) :
    r = p := by
  have hpmem : p ∈ tbl := List.mem_of_find?_eq_some hp
  have hpe : p.endpoint = e := by
    have := List.find?_some hp
    simpa using this
  exact List.inj_on_of_nodup_map hnd hr hpmem (by rw [hre, hpe])

lemma rep_response_find {e : Nat} (w : Nat) (now : Int) :
    ∀ {tbl : List PeerInfo} {p : PeerInfo}, find_peer tbl e = some p →
      find_peer (rep_response tbl e w now).1 e =
        some { p with
               last_rep_response := now
               rep_weight := if p.rep_weight < w then w else p.rep_weight } ∧
      (rep_response tbl e w now).2 = decide (p.rep_weight < w) := by
  intro tbl
  induction tbl with
  | nil => intro p hfind; simp [find_peer] at hfind
  | cons r rest ih =>
    intro p hfind
    by_cases hre : r.endpoint = e
    · have hpr : p = r := by
        simp [find_peer, List.find?_cons_of_pos, hre] at hfind
        exact hfind.symm
      subst hpr
      simp [rep_response, hre, find_peer, List.find?_cons_of_pos]
    · have hfind' : find_peer rest e = some p := by
        simpa [find_peer, List.find?_cons_of_neg, hre] using hfind
      have := ih hfind'
      simp [rep_response, hre, find_peer, List.find?_cons_of_neg, this.1,
        this.2]
      exact this.1

lemma rep_response_missing {e w : Nat} {now : Int} :
    ∀ {tbl : List PeerInfo}, find_peer tbl e = none →
      rep_response tbl e w now = (tbl, false) := by
  intro tbl
  induction tbl with
  | nil => intro _; rfl
  | cons r rest ih =>
    intro hfind
    have hre : ¬ r.endpoint = e := by
      by_contra h
      simp [find_peer, List.find?_cons_of_pos, h] at hfind
    have hrest : find_peer rest e = none := by
      simpa [find_peer, List.find?_cons_of_neg, hre] using hfind
    simp [rep_response, hre, ih hrest]

/-- C6 counterexample.  On the table holding the single peer
`peer_information 3 7 0` (endpoint 3, `last_contact = 0`) with cutoff 5,
the evicted set is the whole table, yet `purge_list` returns the empty
list — the survivors, not the evicted peers — and fires the disconnect
observer even though a peer was evicted.  The claim, which says the
returned list is the evicted list, is false here. -/
theorem purge_list_claim_counterexample :
    (purge_list 5 99 [peer_information 3 7 0]).returned = [] ∧
    [peer_information 3 7 0].filter (fun p => p.last_contact < 5) =
      [peer_information 3 7 0] ∧
    (purge_list 5 99 [peer_information 3 7 0]).disconnectFired = true ∧
    (purge_list 5 99 [peer_information 3 7 0]).returned ≠
      [peer_information 3 7 0].filter (fun p => p.last_contact < 5) := by
  refine ⟨?_, ?_, ?_, ?_⟩ <;> simp [purge_list, peer_information]

/-- C6 as amended.  On a table sorted by `last_contact` (the index the
source iterates), `purge_list cutoff` removes from the table exactly the
entries with `last_contact < cutoff` (the new table is the filtered
survivors, with `last_attempt` refreshed, and no sub-cutoff entry remains),
returns the list of the *surviving* peers, and fires the disconnect
observer precisely when no peer survives. -/
theorem purge_list_spec (cutoff now : Int) (tbl : List PeerInfo)
    (hsort : tbl.Pairwise (fun a b => a.last_contact ≤ b.last_contact)) :
    (purge_list cutoff now tbl).returned =
        tbl.filter (fun p => ¬ p.last_contact < cutoff) ∧
    (purge_list cutoff now tbl).table =
        (tbl.filter (fun p => ¬ p.last_contact < cutoff)).map
          (fun p => { p with last_attempt := now }) ∧
    (∀ p ∈ (purge_list cutoff now tbl).table, ¬ p.last_contact < cutoff) ∧
    ((purge_list cutoff now tbl).disconnectFired = true ↔
        ∀ p ∈ tbl, p.last_contact < cutoff) := by
  have hdrop := dropWhile_eq_filter_of_sorted cutoff tbl hsort
  refine ⟨hdrop, by simp [purge_list, hdrop], ?_, ?_⟩
  · intro p hp
    simp only [purge_list, hdrop, List.mem_map, List.mem_filter] at hp
    obtain ⟨q, ⟨_, hq⟩, rfl⟩ := hp
    simpa using hq
  · simp [purge_list, hdrop, List.isEmpty_iff, List.filter_eq_nil_iff]

/-- Witness for `purge_list_spec` on the sorted two-peer table with
`last_contact` 0 and 10 and cutoff 5: the first peer is evicted, the
second survives (and is returned), the observer does not fire. -/
theorem purge_list_spec_witness :
    (purge_list 5 99 [peer_information 3 7 0,
        peer_information 4 7 10]).returned =
      [peer_information 3 7 0, peer_information 4 7 10].filter
        (fun p => ¬ p.last_contact < 5) ∧
    (purge_list 5 99 [peer_information 3 7 0,
        peer_information 4 7 10]).table =
      ([peer_information 3 7 0, peer_information 4 7 10].filter
        (fun p => ¬ p.last_contact < 5)).map
        (fun p => { p with last_attempt := 99 }) ∧
    (∀ p ∈ (purge_list 5 99 [peer_information 3 7 0,
        peer_information 4 7 10]).table, ¬ p.last_contact < 5) ∧
    ((purge_list 5 99 [peer_information 3 7 0,
        peer_information 4 7 10]).disconnectFired = true ↔
      ∀ p ∈ [peer_information 3 7 0, peer_information 4 7 10],
        p.last_contact < 5) :=
  purge_list_spec 5 99 [peer_information 3 7 0, peer_information 4 7 10]
    (by simp [peer_information])

/-- C9 counterexample.  Block hash 7 is in the crawler's active set and the
sending peer (endpoint 1) is in the table with stored `rep_weight` 10;
a validated vote whose account's ledger weight is 5 arrives.  The observer
leaves `rep_weight` at 10 — it is *not* set equal to the observed weight 5
as the claim states (the code only raises the stored weight). -/
theorem vote_observer_rep_counterexample :
    find_peer (vote_observer_rep [7] 7 1 5 50
        [{ peer_information 1 6 0 with rep_weight := 10 }]).1 1 =
      some { peer_information 1 6 0 with
             rep_weight := 10, last_rep_response := 50 } ∧
    ¬ ∃ p, find_peer (vote_observer_rep [7] 7 1 5 50
        [{ peer_information 1 6 0 with rep_weight := 10 }]).1 1 = some p ∧
          p.rep_weight = 5 := by
  constructor
  · simp [vote_observer_rep, rep_response, find_peer, peer_information]
  · rintro ⟨p, hp, hw⟩
    simp [vote_observer_rep, rep_response, find_peer, peer_information] at hp
    rw [← hp] at hw
    simp at hw

/-- C9 as amended.  When a validated vote arrives for a block hash in the
rep crawler's active set and the sending peer is in the table, the peer's
`last_rep_response` is refreshed and its `rep_weight` becomes the maximum
of the stored value and `ledger.weight (vote.account)` — i.e. it is
overwritten with the observed weight only when that is strictly greater. -/
theorem vote_observer_rep_spec (crawler : List Nat) (blockHash e w : Nat)
    (now : Int) (tbl : List PeerInfo) (p : PeerInfo)
    (hin : blockHash ∈ crawler) (hfind : find_peer tbl e = some p) :
    find_peer (vote_observer_rep crawler blockHash e w now tbl).1 e =
      some { p with
             last_rep_response := now
             rep_weight := max p.rep_weight w } ∧
    (vote_observer_rep crawler blockHash e w now tbl).2 =
      decide (p.rep_weight < w) := by
  have h := rep_response_find w now hfind
  have hmax : (if p.rep_weight < w then w else p.rep_weight) =
      max p.rep_weight w := by
    split <;> omega
  constructor
  · rw [vote_observer_rep, if_pos hin, h.1, hmax]
  · rw [vote_observer_rep, if_pos hin, h.2]

/-- Witness for `vote_observer_rep_spec`: crawler set `[7]`, hash 7, the
single-entry table for endpoint 1 with stored weight 10, observed weight 25
(so the stored weight is raised to 25). -/
theorem vote_observer_rep_spec_witness :
    find_peer (vote_observer_rep [7] 7 1 25 50
        [{ peer_information 1 6 0 with rep_weight := 10 }]).1 1 =
      some { { peer_information 1 6 0 with rep_weight := 10 } with
             last_rep_response := 50
             rep_weight := max 10 25 } ∧
    (vote_observer_rep [7] 7 1 25 50
        [{ peer_information 1 6 0 with rep_weight := 10 }]).2 =
      decide ((10 : Nat) < 25) :=
  vote_observer_rep_spec [7] 7 1 25 50
    [{ peer_information 1 6 0 with rep_weight := 10 }]
    { peer_information 1 6 0 with rep_weight := 10 }
    (by simp) (by simp [find_peer, peer_information])

/-- Relation between a table entry before and after a peer-table operation:
the endpoint is unchanged and the recorded representative weight has not
decreased. -/
def EntryMono (a b : PeerInfo) : Prop :=
  b.endpoint = a.endpoint ∧ a.rep_weight ≤ b.rep_weight

lemma entryMono_refl : ∀ l : List PeerInfo, List.Forall₂ EntryMono l l := by
  intro l
  induction l with
  | nil => exact List.Forall₂.nil
  | cons r rest ih => exact List.Forall₂.cons ⟨rfl, le_refl _⟩ ih

lemma find_weight_of_forall₂ {e : Nat} :
    ∀ {tbl tbl' : List PeerInfo} {p q : PeerInfo},
      List.Forall₂ EntryMono tbl tbl' →
      find_peer tbl e = some p → find_peer tbl' e = some q →
      p.rep_weight ≤ q.rep_weight := by
  intro tbl tbl' p q hrel
  induction hrel with
  | nil => intro hp _; simp [find_peer] at hp
  | cons hab hrest ih =>
    rename_i a b l₁ l₂
    intro hp hq
    by_cases hae : a.endpoint = e
    · have hbe : b.endpoint = e := by rw [hab.1, hae]
      rw [find_peer, List.find?_cons_of_pos _ (by simpa using hae)] at hp
      rw [find_peer, List.find?_cons_of_pos _ (by simpa using hbe)] at hq
      obtain rfl : a = p := by simpa using hp
      obtain rfl : b = q := by simpa using hq
      exact hab.2
    · have hbe : ¬ b.endpoint = e := by rw [hab.1]; exact hae
      rw [find_peer, List.find?_cons_of_neg _ (by simpa using hae)] at hp
      rw [find_peer, List.find?_cons_of_neg _ (by simpa using hbe)] at hq
      exact ih hp hq

lemma rep_request_forall₂ (e0 : Nat) (now : Int) :
    ∀ tbl : List PeerInfo, List.Forall₂ EntryMono tbl (rep_request tbl e0 now) := by
  intro tbl
  induction tbl with
  | nil => exact List.Forall₂.nil
  | cons r rest ih =>
    rw [rep_request]
    by_cases h0 : r.endpoint = e0
    · rw [if_pos h0]
      exact List.Forall₂.cons ⟨rfl, le_refl _⟩ (entryMono_refl rest)
    · rw [if_neg h0]
      exact List.Forall₂.cons ⟨rfl, le_refl _⟩ ih

lemma bootstrap_peer_forall₂ (now : Int) :
    ∀ tbl : List PeerInfo, List.Forall₂ EntryMono tbl (bootstrap_peer tbl now) := by
  intro tbl
  induction tbl with
  | nil => exact List.Forall₂.nil
  | cons r rest ih =>
    rw [bootstrap_peer]
    by_cases h0 : 5 ≤ r.network_version
    · rw [if_pos h0]
      exact List.Forall₂.cons ⟨rfl, le_refl _⟩ (entryMono_refl rest)
    · rw [if_neg h0]
      exact List.Forall₂.cons ⟨rfl, le_refl _⟩ ih

lemma rep_response_forall₂ (e0 w : Nat) (now : Int) :
    ∀ tbl : List PeerInfo,
      List.Forall₂ EntryMono tbl (rep_response tbl e0 w now).1 := by
  intro tbl
  induction tbl with
  | nil => exact List.Forall₂.nil
  | cons r rest ih =>
    rw [rep_response]
    by_cases h0 : r.endpoint = e0
    · rw [if_pos h0]
      refine List.Forall₂.cons ⟨rfl, ?_⟩ (entryMono_refl rest)
      dsimp only
      split <;> omega
    · rw [if_neg h0]
      exact List.Forall₂.cons ⟨rfl, le_refl _⟩ ih

lemma peer_insert_cases (e0 v : Nat) (now : Int) :
    ∀ tbl : List PeerInfo,
      List.Forall₂ EntryMono tbl (peer_insert tbl e0 v now) ∨
      peer_insert tbl e0 v now = tbl ++ [peer_information e0 v now] := by
  intro tbl
  induction tbl with
  | nil => exact Or.inr rfl
  | cons r rest ih =>
    rw [peer_insert]
    by_cases h0 : r.endpoint = e0
    · rw [if_pos h0]
      exact Or.inl (List.Forall₂.cons ⟨rfl, le_refl _⟩ (entryMono_refl rest))
    · rw [if_neg h0]
      rcases ih with ih | ih
      · exact Or.inl (List.Forall₂.cons ⟨rfl, le_refl _⟩ ih)
      · exact Or.inr (by rw [ih]; rfl)

lemma find_peer_append_of_some {tbl : List PeerInfo} {e : Nat} {p : PeerInfo}
    (extra : List PeerInfo) (hp : find_peer tbl e = some p) :
    find_peer (tbl ++ extra) e = some p := by
  rw [find_peer, List.find?_append]
  rw [find_peer] at hp
  rw [hp]
  rfl

lemma purge_find_weight {cutoff now : Int} {e : Nat}
    {tbl : List PeerInfo} {p q : PeerInfo}
    (hnd : (tbl.map PeerInfo.endpoint).Nodup)
    (hp : find_peer tbl e = some p)
    (hq : find_peer (purge_list cutoff now tbl).table e = some q) :
    q.rep_weight = p.rep_weight := by
  have hqmem : q ∈ (purge_list cutoff now tbl).table :=
    List.mem_of_find?_eq_some hq
  have hqe : q.endpoint = e := by
    have := List.find?_some hq
    simpa using this
  simp only [purge_list, List.mem_map] at hqmem
  obtain ⟨r, hrmem, rfl⟩ := hqmem
  have hrtbl : r ∈ tbl :=
    (List.dropWhile_sublist (l := tbl)
      (p := fun p => decide (p.last_contact < cutoff))).subset hrmem
  have : r = p := find_peer_unique hnd hp hrtbl (by simpa using hqe)
  rw [this]

/-- C10 (rep_weight monotonicity).  First, `rep_response` on a present
endpoint returns `true` exactly when the observed weight strictly exceeds
the stored one, and the entry is rewritten with `last_rep_response`
refreshed and `rep_weight` overwritten only in that case; on a missing
endpoint it changes nothing and returns `false`.  Second, across every
peer-table operation (`insert`/`contacted`, `rep_response`, `rep_request`,
`bootstrap_peer`, `purge_list`), an endpoint whose entry is present before
and after the operation never has its recorded `rep_weight` lowered. -/
theorem rep_weight_monotone :
    (∀ (tbl : List PeerInfo) (e w : Nat) (now : Int) (p : PeerInfo),
        find_peer tbl e = some p →
        ((rep_response tbl e w now).2 = true ↔ p.rep_weight < w) ∧
        find_peer (rep_response tbl e w now).1 e =
          some { p with
                 last_rep_response := now
                 rep_weight := if p.rep_weight < w then w
                               else p.rep_weight }) ∧
    (∀ (tbl : List PeerInfo) (e w : Nat) (now : Int),
        find_peer tbl e = none → rep_response tbl e w now = (tbl, false)) ∧
    (∀ (op : PeerOp) (tbl : List PeerInfo) (e : Nat) (p q : PeerInfo),
        (tbl.map PeerInfo.endpoint).Nodup →
        find_peer tbl e = some p →
        find_peer (apply_peer_op op tbl) e = some q →
        p.rep_weight ≤ q.rep_weight) := by
  refine ⟨?_, ?_, ?_⟩
  · intro tbl e w now p hfind
    have h := rep_response_find w now hfind
    refine ⟨?_, h.1⟩
    rw [h.2]
    simp
  · intro tbl e w now hfind
    exact rep_response_missing hfind
  · intro op tbl e p q hnd hp hq
    cases op with
    | insert e0 v now =>
      simp only [apply_peer_op] at hq
      rcases peer_insert_cases e0 v now tbl with hrel | happ
      · exact find_weight_of_forall₂ hrel hp hq
      · rw [happ, find_peer_append_of_some _ hp] at hq
        obtain rfl : p = q := by simpa using hq
        exact le_refl _
    | repResponse e0 w now =>
      simp only [apply_peer_op] at hq
      exact find_weight_of_forall₂ (rep_response_forall₂ e0 w now tbl) hp hq
    | repRequest e0 now =>
      simp only [apply_peer_op] at hq
      exact find_weight_of_forall₂ (rep_request_forall₂ e0 now tbl) hp hq
    | bootstrapPeer now =>
      simp only [apply_peer_op] at hq
      exact find_weight_of_forall₂ (bootstrap_peer_forall₂ now tbl) hp hq
    | purge cutoff now =>
      simp only [apply_peer_op] at hq
      have := purge_find_weight hnd hp hq
      omega

/-- Witness for `rep_weight_monotone` on the single-entry table for
endpoint 1: the present-endpoint clause at observed weight 25, the
missing-endpoint clause at endpoint 2, and the monotonicity clause across
a `rep_response` operation raising the weight from 0 to 25. -/
theorem rep_weight_monotone_witness :
    (((rep_response [peer_information 1 6 0] 1 25 50).2 = true ↔
        (peer_information 1 6 0).rep_weight < 25) ∧
      find_peer (rep_response [peer_information 1 6 0] 1 25 50).1 1 =
        some { peer_information 1 6 0 with
               last_rep_response := 50
               rep_weight := if (peer_information 1 6 0).rep_weight < 25
                             then 25
                             else (peer_information 1 6 0).rep_weight }) ∧
    (rep_response [peer_information 1 6 0] 2 25 50 =
        ([peer_information 1 6 0], false)) ∧
    ((peer_information 1 6 0).rep_weight ≤
        ({ peer_information 1 6 0 with
           last_rep_response := 50, rep_weight := 25 } : PeerInfo).rep_weight) := by
  refine ⟨?_, ?_, ?_⟩
  · exact rep_weight_monotone.1 [peer_information 1 6 0] 1 25 50
      (peer_information 1 6 0) (by simp [find_peer, peer_information])
  · exact rep_weight_monotone.2.1 [peer_information 1 6 0] 2 25 50
      (by simp [find_peer, peer_information])
  · exact rep_weight_monotone.2.2 (.repResponse 1 25 50)
      [peer_information 1 6 0] 1 (peer_information 1 6 0)
      { peer_information 1 6 0 with last_rep_response := 50, rep_weight := 25 }
      (by simp) (by simp [find_peer, peer_information])
      (by simp [apply_peer_op, rep_response, find_peer, peer_information])

/-! ### Gap cache (`raze::gap_cache`, node.cpp)

A cache entry holds an arrival time point and the hash it is keyed by.
The container (declared outside this translation unit) is a boost
multi-index whose index 0 is ordered by `arrival` — it is the one `add`
evicts `begin ()` from when over capacity (oldest first) — and whose
index 1 is keyed by the block hash — it is the one `add` calls
`find (hash)` on and `process_receive_many` calls `erase (hash)` on.
`purge_old` iterates index 1, so the table is modelled here as the list of
entries in index-1 (hash-keyed) iteration order, with ascending hashes as
the concrete order. -/

structure GapInfo where
  arrival : Int
  hash : Nat
deriving DecidableEq, Repr

/-- Embedding of the loop of `raze::gap_cache::purge_old`: repeatedly take
`blocks.get<1> ().begin ()` — the first entry in hash-index order — erase
it while its arrival is older than the cutoff, and stop (`done = true`) at
the first entry that is not. -/
def gap_purge_old_loop (cutoff : Int) : List GapInfo → List GapInfo
  | [] => []
  | e :: rest =>
    if e.arrival < cutoff then gap_purge_old_loop cutoff rest else e :: rest

/-- Embedding of `raze::gap_cache::purge_old`: the cutoff is ten seconds
before the time of the call. -/
def gap_purge_old (now : Int) (blocks : List GapInfo) : List GapInfo :=
  gap_purge_old_loop (now - 10) blocks

/-- C7 evaluated at the failing input.  With entries (in hash-index
iteration order) `⟨arrival 100, hash 1⟩` and `⟨arrival 0, hash 2⟩` and the
call at time 100, `purge_old` inspects the hash-1 entry first, finds it
fresh, sets `done` and stops — so the hash-2 entry, whose arrival is 90
seconds older than the 10-second cutoff, remains in the cache.  The claim
that no entry older than 10 seconds survives `purge_old` fails: the loop's
early exit is only sound on an arrival-ordered index, but the source
iterates `blocks.get<1> ()`, the hash-keyed index. -/
theorem gap_purge_old_code_bug :
    gap_purge_old 100 [⟨100, 1⟩, ⟨0, 2⟩] = [⟨100, 1⟩, ⟨0, 2⟩] ∧
    (⟨0, 2⟩ : GapInfo) ∈ gap_purge_old 100 [⟨100, 1⟩, ⟨0, 2⟩] ∧
    (⟨0, 2⟩ : GapInfo).arrival < 100 - 10 := by
  refine ⟨?_, ?_, ?_⟩ <;> simp [gap_purge_old, gap_purge_old_loop]

/-! ### Vote republishing (`raze::network::republish_vote` and
`raze::election::vote`, node.cpp)

`election::vote` hands the election's `last_vote` time point to
`republish_vote` and then unconditionally refreshes `last_vote` to now.
`republish_vote` forwards the vote to the fanout set only when
`last_vote < now - 1 s` and the voting account's ledger weight exceeds
`Mraze_ratio * 256`.  Time is in seconds; `mraze` stands for
`raze::Mraze_ratio`. -/

def republish_vote_sends (lastVote now : Int) (weight mraze : Nat) : Bool :=
  decide (lastVote < now - 1) && decide (mraze * 256 < weight)

/-- Runs a sequence of `election::vote` calls, each given by its time and
the voting account's ledger weight, threading `last_vote` through; returns
the `(time, weight)` pairs of the calls that actually forwarded the vote. -/
def run_votes (mraze : Nat) (lastVote : Int) :
    List (Int × Nat) → List (Int × Nat)
  | [] => []
  | (t, w) :: rest =>
    (if republish_vote_sends lastVote t w mraze then [(t, w)] else []) ++
      run_votes mraze t rest

lemma run_votes_sends_late (mraze : Nat) :
    ∀ (evs : List (Int × Nat)) (lv : Int),
      List.Chain (· ≤ ·) lv (evs.map Prod.fst) →
      ∀ s ∈ run_votes mraze lv evs, lv + 1 < s.1 := by
  intro evs
  induction evs with
  | nil => intro lv _ s hs; simp [run_votes] at hs
  | cons ev rest ih =>
    obtain ⟨t, w⟩ := ev
    intro lv hchain s hs
    rw [List.map_cons, List.chain_cons] at hchain
    obtain ⟨hle, hrest⟩ := hchain
    rw [run_votes, List.mem_append] at hs
    rcases hs with hs | hs
    · by_cases hsend : republish_vote_sends lv t w mraze = true
      · rw [if_pos hsend, List.mem_singleton] at hs
        subst hs
        have := (Bool.and_eq_true _ _).mp hsend
        have h1 : lv < t - 1 := by simpa using this.1
        omega
      · rw [if_neg hsend] at hs
        simp at hs
    · have := ih t hrest s hs
      omega

lemma run_votes_weight_gate (mraze : Nat) :
    ∀ (evs : List (Int × Nat)) (lv : Int),
      ∀ s ∈ run_votes mraze lv evs, mraze * 256 < s.2 := by
  intro evs
  induction evs with
  | nil => intro lv s hs; simp [run_votes] at hs
  | cons ev rest ih =>
    obtain ⟨t, w⟩ := ev
    intro lv s hs
    rw [run_votes, List.mem_append] at hs
    rcases hs with hs | hs
    · by_cases hsend : republish_vote_sends lv t w mraze = true
      · rw [if_pos hsend, List.mem_singleton] at hs
        subst hs
        have := (Bool.and_eq_true _ _).mp hsend
        simpa using this.2
      · rw [if_neg hsend] at hs
        simp at hs
    · exact ih t s hs

/-- C8 (vote republish rate limiting).  For any initial `last_vote` and
any sequence of `election::vote` calls with nondecreasing times: a call
forwards the vote only if it is more than one second after `last_vote` —
which is at least the time of every earlier call, republishing or not —
and only if the voting account's weight exceeds `256 * Mraze`; and the
forwarded republishes are pairwise more than one second apart, so at most
one republish per second is emitted for the election's root (hence for any
(representative, root) pair). -/
theorem republish_vote_rate_limited (mraze : Nat) (lv : Int)
    (evs : List (Int × Nat))
    (hmono : List.Chain (· ≤ ·) lv (evs.map Prod.fst)) :
    (∀ s ∈ run_votes mraze lv evs, mraze * 256 < s.2) ∧
    (∀ s ∈ run_votes mraze lv evs, lv + 1 < s.1) ∧
    List.Pairwise (fun a b => a.1 + 1 < b.1) (run_votes mraze lv evs) := by
  refine ⟨run_votes_weight_gate mraze evs lv, run_votes_sends_late mraze evs lv hmono, ?_⟩
  induction evs generalizing lv with
  | nil => exact List.Pairwise.nil
  | cons ev rest ih =>
    obtain ⟨t, w⟩ := ev
    rw [List.map_cons, List.chain_cons] at hmono
    obtain ⟨hle, hrest⟩ := hmono
    rw [run_votes]
    by_cases hsend : republish_vote_sends lv t w mraze = true
    · rw [if_pos hsend]
      refine List.pairwise_cons.mpr ⟨?_, ih t hrest⟩
      intro s hs
      exact run_votes_sends_late mraze rest t hrest s hs
    · rw [if_neg hsend]
      simpa using ih t hrest

/-- Witness for `republish_vote_rate_limited`: `mraze = 0`, initial
`last_vote = 0`, calls at times 10, 11, 12 with weight 1 — only the first
call republishes; the next two fall inside its one-second window. -/
theorem republish_vote_rate_limited_witness :
    (∀ s ∈ run_votes 0 0 [(10, 1), (11, 1), (12, 1)], 0 * 256 < s.2) ∧
    (∀ s ∈ run_votes 0 0 [(10, 1), (11, 1), (12, 1)], 0 + 1 < s.1) ∧
    List.Pairwise (fun a b => a.1 + 1 < b.1)
      (run_votes 0 0 [(10, 1), (11, 1), (12, 1)]) :=
  republish_vote_rate_limited 0 0 [(10, 1), (11, 1), (12, 1)]
    (by refine List.Chain.cons (by norm_num) (List.Chain.cons (by norm_num)
          (List.Chain.cons (by norm_num) List.Chain.nil)))

/-! ### Distributed work (`distributed_work`, node.cpp)

Work peers are abstracted to `Nat` identifiers and work values to `Nat`;
`valid w` stands for `!raze::work_validate (root, w)` (validation success).
The object's state: the `outstanding` peer map (keys only), the `completed`
one-shot latch (`std::atomic_flag`), the list of direct user-callback
invocations, the peers sent `work_cancel`, and whether the local work pool
was started as fallback.  Each network outcome for one peer is an event:
`response p w` is an HTTP 200 whose body parsed to work value `w`
(`success`), `failure p` is a connect/write/read error, a non-200 status,
or an unparsable body (all of which call `failure (address)`). -/

structure DWState where
  outstanding : List Nat
  completed : Bool
  callbacks : List Nat
  cancels : List Nat
  localStarted : Bool
deriving DecidableEq, Repr

inductive DWEvent where
  | response (peer work : Nat)
  | failure (peer : Nat)
deriving DecidableEq, Repr

/-- Embedding of `distributed_work::set_once`: the compare-and-set latch
around the user callback. -/
def set_once (s : DWState) (w : Nat) : DWState :=
  if s.completed then s
  else { s with completed := true, callbacks := s.callbacks ++ [w] }

/-- Embedding of `distributed_work::stop`: send `work_cancel` to every
still-outstanding peer and clear the outstanding map. -/
def dw_stop (s : DWState) : DWState :=
  { s with cancels := s.cancels ++ s.outstanding, outstanding := [] }

/-- Embedding of `distributed_work::handle_failure`: when the failing peer
was the last outstanding one and the latch is not yet set, set it and start
the local work pool. -/
def handle_failure (s : DWState) (last : Bool) : DWState :=
  if last then
    if s.completed then s
    else { s with completed := true, localStarted := true }
  else s

/-- One network outcome, following `success` / `failure` in the source:
`remove (address)` erases the peer and reports whether the map emptied;
a validating response runs `set_once` then `stop`; anything else runs
`handle_failure (last)`. -/
def dw_step (valid : Nat → Bool) (s : DWState) (e : DWEvent) : DWState :=
  match e with
  | .response p w =>
    if valid w then
      dw_stop (set_once { s with outstanding := s.outstanding.erase p } w)
    else
      handle_failure { s with outstanding := s.outstanding.erase p }
        (s.outstanding.erase p).isEmpty
  | .failure p =>
    handle_failure { s with outstanding := s.outstanding.erase p }
      (s.outstanding.erase p).isEmpty

def dw_run (valid : Nat → Bool) (s : DWState) (es : List DWEvent) : DWState :=
  es.foldl (dw_step valid) s

/-- State built by the `distributed_work` constructor: the configured work
peers outstanding, the latch cleared, nothing dispatched. -/
def dw_init (peers : List Nat) : DWState :=
  { outstanding := peers
    completed := false
    callbacks := []
    cancels := []
    localStarted := false }

/-- Embedding of `distributed_work::start`: with no work peers configured,
`handle_failure (true)` immediately falls back to the local pool. -/
def dw_start (peers : List Nat) : DWState :=
  if (dw_init peers).outstanding.isEmpty then handle_failure (dw_init peers) true
  else dw_init peers

/-- Events that do not deliver validating work: failures and responses
whose work value does not validate. -/
def dw_failing (valid : Nat → Bool) : DWEvent → Bool
  | .response _ w => !valid w
  | .failure _ => true

/-- Invariant tying the latch to the dispatched effects: at most one
callback ever fires; a started local pool means no callback fired and no
peer is outstanding; an unset latch means nothing fired yet. -/
def dw_inv (s : DWState) : Prop :=
  s.callbacks.length ≤ 1 ∧
  (s.localStarted = true → s.callbacks = [] ∧ s.outstanding = []) ∧
  (s.completed = false → s.callbacks = [] ∧ s.localStarted = false)

lemma handle_failure_erase_inv {s : DWState} {p : Nat} (h : dw_inv s) :
    dw_inv (handle_failure { s with outstanding := s.outstanding.erase p }
      (s.outstanding.erase p).isEmpty) := by
  obtain ⟨h1, h2, h3⟩ := h
  have hout : (s.outstanding.erase p).isEmpty = true →
      s.outstanding.erase p = [] := by
    intro h
    simpa using h
  by_cases hlast : ((s.outstanding.erase p).isEmpty : Bool) = true
  · by_cases hc : s.completed = true
    · refine ⟨?_, ?_, ?_⟩
      · simpa [handle_failure, hlast, hc] using h1
      · intro hl
        simp only [handle_failure, hlast, if_true, hc] at hl
        refine ⟨?_, ?_⟩
        · simpa [handle_failure, hlast, hc] using (h2 hl).1
        · simp [handle_failure, hlast, hc, hout hlast]
      · intro hcf
        simp [handle_failure, hlast, hc] at hcf
    · have hc' : s.completed = false := by simpa using hc
      obtain ⟨hcb, hls⟩ := h3 hc'
      refine ⟨?_, ?_, ?_⟩
      · simp [handle_failure, hlast, hc', hcb]
      · intro _
        refine ⟨?_, ?_⟩
        · simpa [handle_failure, hlast, hc'] using hcb
        · simp [handle_failure, hlast, hc', hout hlast]
      · intro hcf
        simp [handle_failure, hlast, hc'] at hcf
  · refine ⟨?_, ?_, ?_⟩
    · simpa [handle_failure, hlast] using h1
    · intro hl
      simp only [handle_failure, hlast, Bool.false_eq_true, if_false] at hl
      refine ⟨?_, ?_⟩
      · simpa [handle_failure, hlast] using (h2 hl).1
      · have hempty : s.outstanding = [] := (h2 hl).2
        exact absurd (by simp [hempty] : (s.outstanding.erase p).isEmpty = true)
          hlast
    · intro hcf
      simp only [handle_failure, hlast, Bool.false_eq_true, if_false] at hcf
      obtain ⟨hcb, hls⟩ := h3 hcf
      simp [handle_failure, hlast, hcb, hls]

lemma dw_stop_set_once_inv {s : DWState} {p w : Nat} (h : dw_inv s) :
    dw_inv (dw_stop (set_once { s with outstanding := s.outstanding.erase p }
      w)) := by
  obtain ⟨h1, h2, h3⟩ := h
  by_cases hc : s.completed = true
  · refine ⟨?_, ?_, ?_⟩
    · simpa [dw_stop, set_once, hc] using h1
    · intro hl
      simp only [dw_stop, set_once, hc, if_true] at hl
      refine ⟨?_, ?_⟩
      · simpa [dw_stop, set_once, hc] using (h2 hl).1
      · simp [dw_stop, set_once, hc]
    · intro hcf
      simp [dw_stop, set_once, hc] at hcf
  · have hc' : s.completed = false := by simpa using hc
    obtain ⟨hcb, hls⟩ := h3 hc'
    refine ⟨?_, ?_, ?_⟩
    · simp [dw_stop, set_once, hc', hcb]
    · intro hl
      simp only [dw_stop, set_once, hc', Bool.false_eq_true, if_false] at hl
      rw [hls] at hl
      simp at hl
    · intro hcf
      simp [dw_stop, set_once, hc'] at hcf

lemma dw_step_inv {valid : Nat → Bool} {s : DWState} {e : DWEvent}
    (h : dw_inv s) : dw_inv (dw_step valid s e) := by
  cases e with
  | response p w =>
    by_cases hv : valid w = true
    · rw [dw_step, if_pos hv]
      exact dw_stop_set_once_inv h
    · rw [dw_step, if_neg hv]
      exact handle_failure_erase_inv h
  | failure p =>
    rw [dw_step]
    exact handle_failure_erase_inv h

lemma dw_run_inv (valid : Nat → Bool) {s : DWState} (es : List DWEvent)
    (h : dw_inv s) : dw_inv (dw_run valid s es) := by
  induction es generalizing s with
  | nil => exact h
  | cons e rest ih => exact ih (dw_step_inv h)

lemma dw_run_append (valid : Nat → Bool) (s : DWState)
    (l1 l2 : List DWEvent) :
    dw_run valid s (l1 ++ l2) = dw_run valid (dw_run valid s l1) l2 := by
  simp [dw_run, List.foldl_append]

lemma handle_failure_fields (s : DWState) (b : Bool) :
    (handle_failure s b).outstanding = s.outstanding ∧
    (handle_failure s b).callbacks = s.callbacks ∧
    (handle_failure s b).cancels = s.cancels := by
  rw [handle_failure]
  by_cases hb : b = true
  · rw [if_pos hb]
    by_cases hc : s.completed = true
    · rw [if_pos hc]
      exact ⟨rfl, rfl, rfl⟩
    · rw [if_neg hc]
      exact ⟨rfl, rfl, rfl⟩
  · rw [if_neg hb]
    exact ⟨rfl, rfl, rfl⟩

lemma dw_step_frozen (valid : Nat → Bool) {s : DWState} (e : DWEvent)
    (h : s.completed = true) :
    (dw_step valid s e).completed = true ∧
    (dw_step valid s e).callbacks = s.callbacks ∧
    (dw_step valid s e).localStarted = s.localStarted := by
  cases e with
  | response p w =>
    by_cases hv : valid w = true
    · simp [dw_step, hv, dw_stop, set_once, h]
    · rw [dw_step, if_neg hv]
      by_cases hl : ((s.outstanding.erase p).isEmpty : Bool) = true <;>
        simp [handle_failure, hl, h]
  | failure p =>
    rw [dw_step]
    by_cases hl : ((s.outstanding.erase p).isEmpty : Bool) = true <;>
      simp [handle_failure, hl, h]

lemma dw_run_frozen (valid : Nat → Bool) {s : DWState} (es : List DWEvent)
    (h : s.completed = true) :
    (dw_run valid s es).completed = true ∧
    (dw_run valid s es).callbacks = s.callbacks ∧
    (dw_run valid s es).localStarted = s.localStarted := by
  induction es generalizing s with
  | nil => exact ⟨h, rfl, rfl⟩
  | cons e rest ih =>
    have hstep := dw_step_frozen valid (s := s) e h
    have hrest := ih (s := dw_step valid s e) hstep.1
    exact ⟨hrest.1, hrest.2.1.trans hstep.2.1, hrest.2.2.trans hstep.2.2⟩

lemma dw_step_outstanding_absorb {valid : Nat → Bool} {s : DWState}
    {e : DWEvent} (h : s.outstanding = []) :
    (dw_step valid s e).outstanding = [] := by
  cases e with
  | response p w =>
    by_cases hv : valid w = true
    · simp [dw_step, hv, dw_stop]
    · rw [dw_step, if_neg hv, (handle_failure_fields _ _).1]
      simp [h]
  | failure p =>
    rw [dw_step, (handle_failure_fields _ _).1]
    simp [h]

lemma dw_run_outstanding_absorb {valid : Nat → Bool} {s : DWState}
    (es : List DWEvent) (h : s.outstanding = []) :
    (dw_run valid s es).outstanding = [] := by
  induction es generalizing s with
  | nil => exact h
  | cons e rest ih => exact ih (dw_step_outstanding_absorb h)

lemma dw_step_failing_form {valid : Nat → Bool} {s : DWState} {e : DWEvent}
    (hf : dw_failing valid e = true) :
    ∃ p, dw_step valid s e =
      handle_failure { s with outstanding := s.outstanding.erase p }
        (s.outstanding.erase p).isEmpty := by
  cases e with
  | response q w =>
    have hv : ¬ valid w = true := by simpa [dw_failing] using hf
    exact ⟨q, by rw [dw_step, if_neg hv]⟩
  | failure q => exact ⟨q, by rw [dw_step]⟩

lemma dw_run_failing_cancels (valid : Nat → Bool) {s : DWState}
    (es : List DWEvent) (hf : ∀ e ∈ es, dw_failing valid e = true) :
    (dw_run valid s es).cancels = s.cancels := by
  induction es generalizing s with
  | nil => rfl
  | cons e rest ih =>
    obtain ⟨p, hps⟩ := dw_step_failing_form (s := s)
      (hf e (List.mem_cons_self e rest))
    have hcons : dw_run valid s (e :: rest) =
        dw_run valid (dw_step valid s e) rest := rfl
    rw [hcons, ih (fun x hx => hf x (List.mem_cons_of_mem e hx)), hps,
      (handle_failure_fields _ _).2.2]

lemma dw_run_failing_outstanding_length (valid : Nat → Bool) {s : DWState}
    (es : List DWEvent) (hf : ∀ e ∈ es, dw_failing valid e = true) :
    s.outstanding.length ≤ (dw_run valid s es).outstanding.length +
      es.length := by
  induction es generalizing s with
  | nil => simp [dw_run]
  | cons e rest ih =>
    obtain ⟨p, hps⟩ := dw_step_failing_form (s := s)
      (hf e (List.mem_cons_self e rest))
    have hcons : dw_run valid s (e :: rest) =
        dw_run valid (dw_step valid s e) rest := rfl
    have hlen : s.outstanding.length ≤
        (dw_step valid s e).outstanding.length + 1 := by
      rw [hps, (handle_failure_fields _ _).1]
      have := List.length_erase_le p s.outstanding
      have h2 := List.length_erase p s.outstanding
      by_cases hm : p ∈ s.outstanding
      · rw [h2, if_pos hm]
        omega
      · rw [h2, if_neg hm]
        omega
    have := ih (s := dw_step valid s e)
      (fun x hx => hf x (List.mem_cons_of_mem e hx))
    rw [hcons]
    simp only [List.length_cons]
    omega

lemma dw_run_failing_not_completed {valid : Nat → Bool} {s : DWState}
    (es : List DWEvent) (hf : ∀ e ∈ es, dw_failing valid e = true)
    (hc : s.completed = false)
    (hout : (dw_run valid s es).outstanding ≠ []) :
    (dw_run valid s es).completed = false := by
  induction es generalizing s with
  | nil => exact hc
  | cons e rest ih =>
    obtain ⟨p, hps⟩ := dw_step_failing_form (s := s)
      (hf e (List.mem_cons_self e rest))
    have hcons : dw_run valid s (e :: rest) =
        dw_run valid (dw_step valid s e) rest := rfl
    rw [hcons] at hout ⊢
    by_cases hep : s.outstanding.erase p = []
    · exfalso
      apply hout
      apply dw_run_outstanding_absorb
      rw [hps, (handle_failure_fields _ _).1]
      exact hep
    · have hlast : ((s.outstanding.erase p).isEmpty : Bool) = false := by
        simpa [List.isEmpty_iff] using hep
      have hstep : dw_step valid s e =
          { s with outstanding := s.outstanding.erase p } := by
        rw [hps, hlast, handle_failure]
        simp
      have hc' : (dw_step valid s e).completed = false := by
        rw [hstep]
        exact hc
      exact ih (fun x hx => hf x (List.mem_cons_of_mem e hx)) hc' hout

lemma dw_run_failing_local (valid : Nat → Bool) {s : DWState}
    (es : List DWEvent) (hf : ∀ e ∈ es, dw_failing valid e = true)
    (hc : s.completed = false) (hne : s.outstanding ≠ [])
    (hout : (dw_run valid s es).outstanding = []) :
    (dw_run valid s es).localStarted = true := by
  induction es generalizing s with
  | nil => exact absurd hout hne
  | cons e rest ih =>
    obtain ⟨p, hps⟩ := dw_step_failing_form (s := s)
      (hf e (List.mem_cons_self e rest))
    have hcons : dw_run valid s (e :: rest) =
        dw_run valid (dw_step valid s e) rest := rfl
    rw [hcons] at hout ⊢
    by_cases hep : s.outstanding.erase p = []
    · have hlast : ((s.outstanding.erase p).isEmpty : Bool) = true := by
        simp [hep]
      have hstep : dw_step valid s e =
          { s with
            outstanding := s.outstanding.erase p
            completed := true
            localStarted := true } := by
        rw [hps, hlast, handle_failure]
        simp [hc]
      have hfroz := dw_run_frozen valid
        (s := dw_step valid s e) rest (by rw [hstep])
      rw [hfroz.2.2, hstep]
    · have hlast : ((s.outstanding.erase p).isEmpty : Bool) = false := by
        simpa [List.isEmpty_iff] using hep
      have hstep : dw_step valid s e =
          { s with outstanding := s.outstanding.erase p } := by
        rw [hps, hlast, handle_failure]
        simp
      refine ih (fun x hx => hf x (List.mem_cons_of_mem e hx)) ?_ ?_ hout
      · rw [hstep]
        exact hc
      · rw [hstep]
        exact hep

lemma dw_init_inv (ps : List Nat) : dw_inv (dw_init ps) := by
  refine ⟨by simp [dw_init], ?_, fun _ => ⟨rfl, rfl⟩⟩
  intro hl
  simp [dw_init] at hl

lemma dw_start_inv (ps : List Nat) : dw_inv (dw_start ps) := by
  rw [dw_start]
  by_cases hps : ((dw_init ps).outstanding.isEmpty : Bool) = true
  · rw [if_pos hps]
    have hempty : ps = [] := by simpa [dw_init, List.isEmpty_iff] using hps
    subst hempty
    refine ⟨by simp [handle_failure, dw_init], ?_, ?_⟩
    · intro _
      simp [handle_failure, dw_init]
    · intro hcf
      simp [handle_failure, dw_init] at hcf
  · rw [if_neg hps]
    exact dw_init_inv ps

/-- C4 (distributed PoW race).  For every sequence of peer outcomes:
(1) the user callback fires at most once (counting a `dw_start` that falls
back immediately on an empty peer list); (2) if, with a non-empty work-peer
list, a prefix of non-validating outcomes shorter than the peer list is
followed by the first validating response `w`, then — whatever outcomes
follow — the callback fires exactly once with that first valid value `w`,
the local pool is never started, and at the moment of that response
`work_cancel` has been sent to precisely the still-outstanding peers
(everyone outstanding after removing the responder); (3) if every peer
fails or returns invalid work (all outcomes non-validating and the
outstanding map empties), the local pool is started and the callback never
fired. -/
theorem distributed_work_once (valid : Nat → Bool) :
    (∀ (ps : List Nat) (es : List DWEvent),
        (dw_run valid (dw_start ps) es).callbacks.length ≤ 1) ∧
    (∀ (ps : List Nat) (pre post : List DWEvent) (p w : Nat),
        (∀ e ∈ pre, dw_failing valid e = true) →
        pre.length < ps.length → valid w = true →
        (dw_run valid (dw_init ps)
            (pre ++ DWEvent.response p w :: post)).callbacks = [w] ∧
        (dw_run valid (dw_init ps)
            (pre ++ DWEvent.response p w :: post)).localStarted = false ∧
        (dw_run valid (dw_init ps) (pre ++ [DWEvent.response p w])).cancels =
          (dw_run valid (dw_init ps) pre).outstanding.erase p) ∧
    (∀ (ps : List Nat) (es : List DWEvent),
        (∀ e ∈ es, dw_failing valid e = true) → ps ≠ [] →
        (dw_run valid (dw_init ps) es).outstanding = [] →
        (dw_run valid (dw_init ps) es).localStarted = true ∧
        (dw_run valid (dw_init ps) es).callbacks = []) := by
  refine ⟨?_, ?_, ?_⟩
  · intro ps es
    exact (dw_run_inv valid es (dw_start_inv ps)).1
  · intro ps pre post p w hfail hlen hv
    have houtlen := dw_run_failing_outstanding_length valid
      (s := dw_init ps) pre hfail
    have hinitlen : (dw_init ps).outstanding.length = ps.length := rfl
    rw [hinitlen] at houtlen
    have hne : (dw_run valid (dw_init ps) pre).outstanding ≠ [] := by
      intro hnil
      rw [hnil] at houtlen
      simp at houtlen
      omega
    have hcomp : (dw_run valid (dw_init ps) pre).completed = false :=
      dw_run_failing_not_completed pre hfail rfl hne
    obtain ⟨-, -, h3⟩ := dw_run_inv valid (s := dw_init ps) pre
      (dw_init_inv ps)
    obtain ⟨hcb, hls⟩ := h3 hcomp
    have hcanc : (dw_run valid (dw_init ps) pre).cancels = [] := by
      have := dw_run_failing_cancels valid
        (s := dw_init ps) pre hfail
      simpa [dw_init] using this
    have hmid : dw_step valid (dw_run valid (dw_init ps) pre)
        (DWEvent.response p w) =
        { outstanding := []
          completed := true
          callbacks := [w]
          cancels := (dw_run valid (dw_init ps) pre).outstanding.erase p
          localStarted := false } := by
      rw [dw_step, if_pos hv, set_once]
      simp [hcomp, dw_stop, hcb, hcanc, hls]
    have hsplit : dw_run valid (dw_init ps)
        (pre ++ DWEvent.response p w :: post) =
        dw_run valid (dw_step valid (dw_run valid (dw_init ps) pre)
          (DWEvent.response p w)) post := by
      rw [dw_run_append]
      rfl
    have hfinal := dw_run_frozen valid
      (s := dw_step valid (dw_run valid (dw_init ps) pre)
        (DWEvent.response p w)) post (by rw [hmid])
    refine ⟨?_, ?_, ?_⟩
    · rw [hsplit, hfinal.2.1, hmid]
    · rw [hsplit, hfinal.2.2, hmid]
    · have hone : dw_run valid (dw_init ps) (pre ++ [DWEvent.response p w]) =
          dw_step valid (dw_run valid (dw_init ps) pre)
            (DWEvent.response p w) := by
        rw [dw_run_append]
        rfl
      rw [hone, hmid]
  · intro ps es hf hne hout
    have hl := dw_run_failing_local valid (s := dw_init ps) es hf
      rfl (by simpa [dw_init] using hne) hout
    refine ⟨hl, ?_⟩
    have hinv := dw_run_inv valid (s := dw_init ps) es
      (dw_init_inv ps)
    exact (hinv.2.1 hl).1

/-- Witness for `distributed_work_once` with peers `[1, 2]` and validity
`w = 5`: clause 1 at the empty event list; clause 2 with peer 1 failing
then peer 2 answering the valid work 5 (scenario S5 of the spec); clause 3
with both peers failing. -/
theorem distributed_work_once_witness :
    (dw_run (fun w => decide (w = 5)) (dw_start [1, 2]) []).callbacks.length
        ≤ 1 ∧
    ((dw_run (fun w => decide (w = 5)) (dw_init [1, 2])
        ([DWEvent.failure 1] ++ DWEvent.response 2 5 :: [])).callbacks =
          [5] ∧
      (dw_run (fun w => decide (w = 5)) (dw_init [1, 2])
        ([DWEvent.failure 1] ++
          DWEvent.response 2 5 :: [])).localStarted = false ∧
      (dw_run (fun w => decide (w = 5)) (dw_init [1, 2])
        ([DWEvent.failure 1] ++ [DWEvent.response 2 5])).cancels =
        (dw_run (fun w => decide (w = 5)) (dw_init [1, 2])
          [DWEvent.failure 1]).outstanding.erase 2) ∧
    ((dw_run (fun w => decide (w = 5)) (dw_init [1, 2])
        [DWEvent.failure 1, DWEvent.failure 2]).localStarted = true ∧
      (dw_run (fun w => decide (w = 5)) (dw_init [1, 2])
        [DWEvent.failure 1, DWEvent.failure 2]).callbacks = []) :=
  ⟨(distributed_work_once (fun w => decide (w = 5))).1 [1, 2] [],
   (distributed_work_once (fun w => decide (w = 5))).2.1 [1, 2]
     [DWEvent.failure 1] [] 2 5 (by decide) (by decide) (by decide),
   (distributed_work_once (fun w => decide (w = 5))).2.2 [1, 2]
     [DWEvent.failure 1, DWEvent.failure 2] (by decide) (by decide)
     (by decide)⟩

end Razeblock
